import Mathlib

/-!
Verification of the gometalinter front end (main.go and its CLI glue)
against its natural-language specification.

The Go code is shallowly embedded: pure functions become Lean functions,
library calls (text/template parsing, regexp compilation, the filesystem
walk, the kingpin flag parser) become explicit parameters or small models,
and fatal exits become the Except monad.  Go strings are Lean String
values manipulated through their character lists.
-/

set_option maxHeartbeats 1000000

namespace Gometalinter

/-! ## String helpers modelling the Go standard library -/

/-- Model of strings.HasPrefix restricted to character lists: does the
pattern list start the second list? -/
def startsChars : List Char → List Char → Bool
  | [], _ => true
  | _ :: _, [] => false
  | a :: as, b :: bs => a == b && startsChars as bs

/-- Model of strings.HasPrefix. -/
def strStarts (s pat : String) : Bool :=
  startsChars pat.data s.data

/-- Model of strings.HasSuffix, via reversed character lists. -/
def strEnds (s pat : String) : Bool :=
  startsChars pat.data.reverse s.data.reverse

/-- Model of filepath.IsAbs for unix paths. -/
def isAbs (p : String) : Bool :=
  strStarts p "/"

/-- Model of the element-splitting step of path cleaning: split a character
list at every slash. -/
def splitSlash : List Char → List (List Char)
  | [] => [[]]
  | c :: rest =>
    let r := splitSlash rest
    if c = '/' then [] :: r
    else
      match r with
      | h :: t => (c :: h) :: t
      | [] => [[c]]

/-- Model of the element-processing loop of filepath.Clean: drop empty and
dot elements, resolve dot-dot elements against the accumulator. -/
def cleanProc (rooted : Bool) (acc : List (List Char)) : List (List Char) → List (List Char)
  | [] => acc.reverse
  | e :: rest =>
    if e = [] ∨ e = ['.'] then cleanProc rooted acc rest
    else if e = ['.', '.'] then
      match acc with
      | [] => if rooted then cleanProc rooted [] rest else cleanProc rooted [['.', '.']] rest
      | a :: accTail =>
        if a = ['.', '.'] then cleanProc rooted (e :: a :: accTail) rest
        else cleanProc rooted accTail rest
  else cleanProc rooted (e :: acc) rest

/-- Join path elements back together with slashes. -/
def joinSlash : List (List Char) → List Char
  | [] => []
  | [e] => e
  | e :: rest => e ++ '/' :: joinSlash rest

/-- Model of filepath.Clean for unix paths: lexical simplification of a
path, returning a dot for the empty path. -/
def clean (path : String) : String :=
  if path = "" then "."
  else
    let rooted := isAbs path
    let elems := cleanProc rooted [] (splitSlash path.data)
    if elems = [] then (if rooted then "/" else ".")
    else ⟨(if rooted then ['/'] else []) ++ joinSlash elems⟩

/-- Model of filepath.Base for unix paths: the last element of the path
after trailing slashes are removed. -/
def goBase (path : String) : String :=
  if path = "" then "."
  else
    let r := path.data.reverse.dropWhile (fun c => c = '/')
    if r = [] then "/"
    else ⟨(r.takeWhile (fun c => c ≠ '/')).reverse⟩

/-- Model of filepath.Dir for unix paths: everything up to and including
the final slash, cleaned. -/
def goDir (path : String) : String :=
  clean ⟨(path.data.reverse.dropWhile (fun c => c ≠ '/')).reverse⟩

/-! ## Ascending lexicographic order on strings (model of sort.Strings) -/

/-- Lexicographic comparison of character lists by code point, the order
sort.Strings uses on the byte level. -/
def charListLe : List Char → List Char → Bool
  | [], _ => true
  | _ :: _, [] => false
  | a :: as, b :: bs =>
    if a.toNat = b.toNat then charListLe as bs
    else decide (a.toNat < b.toNat)

/-- Lexicographic order on strings as a proposition, used to state that
sort.Strings sorted its input. -/
def strLeP (a b : String) : Prop :=
  charListLe a.data b.data = true

instance : DecidableRel strLeP := fun a b =>
  inferInstanceAs (Decidable (charListLe a.data b.data = true))

theorem charListLe_total : ∀ a b : List Char, charListLe a b = true ∨ charListLe b a = true := by
  intro a
  induction a with
  | nil => intro b; left; rfl
  | cons x xs ih =>
    intro b
    cases b with
    | nil => right; rfl
    | cons y ys =>
      by_cases hxy : x.toNat = y.toNat
      · rcases ih ys with h | h
        · left; simp [charListLe, hxy, h]
        · right; simp [charListLe, hxy.symm, h]
      · rcases Nat.lt_or_ge x.toNat y.toNat with h | h
        · left; simp [charListLe, hxy, h]
        · right
          have hyx : y.toNat ≠ x.toNat := fun h2 => hxy h2.symm
          have : y.toNat < x.toNat := lt_of_le_of_ne h hyx
          simp [charListLe, hyx, this]

theorem charListLe_trans : ∀ a b c : List Char,
    charListLe a b = true → charListLe b c = true → charListLe a c = true := by
  intro a
  induction a with
  | nil => intro b c _ _; rfl
  | cons x xs ih =>
    intro b c hab hbc
    cases b with
    | nil => simp [charListLe] at hab
    | cons y ys =>
      cases c with
      | nil => simp [charListLe] at hbc
      | cons z zs =>
        by_cases hxy : x.toNat = y.toNat <;> by_cases hyz : y.toNat = z.toNat
        · have hxz : x.toNat = z.toNat := hxy.trans hyz
          rw [charListLe, if_pos hxy] at hab
          rw [charListLe, if_pos hyz] at hbc
          rw [charListLe, if_pos hxz]
          exact ih ys zs hab hbc
        · have hxz : x.toNat ≠ z.toNat := fun h => hyz (hxy ▸ h)
          rw [charListLe, if_neg hyz] at hbc
          rw [charListLe, if_neg hxz, decide_eq_true_eq]
          rw [hxy]
          exact of_decide_eq_true hbc
        · have hxz : x.toNat ≠ z.toNat := fun h => hxy (hyz ▸ h)
          rw [charListLe, if_neg hxy] at hab
          rw [charListLe, if_neg hxz, decide_eq_true_eq]
          rw [← hyz]
          exact of_decide_eq_true hab
        · rw [charListLe, if_neg hxy] at hab
          rw [charListLe, if_neg hyz] at hbc
          have hlt : x.toNat < z.toNat :=
            Nat.lt_trans (of_decide_eq_true hab) (of_decide_eq_true hbc)
          have hxz : x.toNat ≠ z.toNat := Nat.ne_of_lt hlt
          rw [charListLe, if_neg hxz, decide_eq_true_eq]
          exact hlt

instance : IsTotal String strLeP :=
  ⟨fun a b => charListLe_total a.data b.data⟩

instance : IsTrans String strLeP :=
  ⟨fun a b c => charListLe_trans a.data b.data c.data⟩

/-! ## Path resolution (resolvePaths, newPathFilter, relativePackagePath) -/

/-- Embedding of relativePackagePath from main.go: absolute paths and
paths already starting with a dot are returned unchanged, every other
package path gets a dot-slash put in front. -/
def relativePackagePath (dir : String) : String :=
  if isAbs dir || strStarts dir "." then dir
  else "./" ++ dir

/-- Embedding of newPathFilter from main.go: a path is skipped when its
base name or the whole path is listed, or when its base name (other than
the dot and dot-dot names) starts with an underscore or a dot. -/
def newPathFilter (skip : List String) : String → Bool :=
  fun path =>
    let base := goBase path
    if skip.contains base || skip.contains path then true
    else base ≠ "." && base ≠ ".." && (strStarts base "_" || strStarts base ".")

/-- Model of the stringSet used by resolvePaths (its file is not under
src): adding an element already present leaves the set unchanged.  Insert
order is irrelevant to resolvePaths, which sorts afterwards. -/
def stringSetAdd (s : List String) (x : String) : List String :=
  if s.contains x then s else x :: s

/-- One entry the filesystem walk would visit: its path, whether it is a
directory, and whether the walk reached it without error. -/
structure WalkEntry where
  path : String
  isDir : Bool
  ok : Bool := true
deriving DecidableEq

/-- Does the path lie strictly below one of the directories already
skipped by the walk? -/
def underSkipped (skipped : List String) (p : String) : Bool :=
  skipped.any (fun d => strStarts p (d ++ "/"))

/-- Embedding of the filepath.Walk callback in resolvePaths: walk errors
abort the walk after a warning, skipped directories prune their subtree,
and every unskipped Go source file contributes its cleaned directory. -/
def walkLoop (skipPath : String → Bool) :
    List WalkEntry → List String → List String → List String
  | [], _, dirs => dirs
  | e :: rest, skipped, dirs =>
    if underSkipped skipped e.path then walkLoop skipPath rest skipped dirs
    else if !e.ok then dirs
    else if e.isDir && skipPath e.path then walkLoop skipPath rest (e.path :: skipped) dirs
    else if !e.isDir && !skipPath e.path && strEnds e.path ".go" then
      walkLoop skipPath rest skipped (stringSetAdd dirs (clean (goDir e.path)))
    else walkLoop skipPath rest skipped dirs

/-- Embedding of resolvePaths from main.go.  The filesystem is supplied
as a function from a walk root to the entries filepath.Walk would visit
below it, in visit order. -/
def resolvePaths (fs : String → List WalkEntry) (paths skip : List String) : List String :=
  if paths = [] then ["."]
  else
    let skipPath := newPathFilter skip
    let dirs := paths.foldl
      (fun dirs path =>
        if strEnds path "/..." then walkLoop skipPath (fs (goDir path)) [] dirs
        else stringSetAdd dirs (clean path))
      []
    List.insertionSort strLeP (dirs.map relativePackagePath)

/-! ## Configuration data model -/

/-- Parsed output template, the result of template.New("output").Parse.
Only its presence matters to the claims, so it wraps the format text. -/
structure Template where
  text : String
deriving DecidableEq

/-- Compiled regular expression, the result of regexp.MustCompile.  Only
which pattern was compiled matters to the claims. -/
structure Regex where
  pat : String
deriving DecidableEq

/-- Issue severities, from the data model of the spec. -/
inductive Severity where
  | Error
  | Warning
deriving DecidableEq

/-- Linter definition record.  The source file declaring it is not under
src; the fields are the ones main.go and the CLI glue read (name, command
template, output pattern, fast classification). -/
structure Linter where
  Name : String := ""
  Command : String := ""
  Pattern : String := ""
  IsFast : Bool := false
deriving DecidableEq

/-- One normalized issue record, per the data model of the spec.  Only
the severity field is inspected by the code under verification. -/
structure Issue where
  Linter : String := ""
  Path : String := ""
  Line : Nat := 0
  Col : Nat := 0
  Message : String := ""
  Severity : Severity := Severity.Warning
deriving DecidableEq

/-- Configuration record, the fields of the Config struct that main.go
reads.  The SortKeyList field embeds the Go field named Sort, renamed
because Sort is a reserved word in Lean.  The formatTemplate field holds the parsed output template.  The
per-linter override map feeding getLinterByName is folded into the
getLinter parameter of lintersFromConfig, since both the map's value type
and getLinterByName live in files that are not under src. -/
structure Config where
  Format : String := ""
  Enable : List String := []
  Disable : List String := []
  Fast : Bool := false
  Install : Bool := false
  Update : Bool := false
  VendoredLinters : Bool := false
  Debug : Bool := false
  Concurrency : Nat := 1
  Exclude : List String := []
  Include : List String := []
  Skip : List String := []
  Vendor : Bool := false
  Errors : Bool := false
  JSON : Bool := false
  Checkstyle : Bool := false
  EnableGC : Bool := false
  Aggregate : Bool := false
  EnableAll : Bool := false
  SortKeyList : List String := []
  formatTemplate : Option Template := none
deriving DecidableEq

/-- Model of regexp.MustCompile on top of an abstract compiler: a failed
compilation panics, which in this embedding is a fatal error. -/
def mustCompile (rc : String → Option Regex) (pat : String) : Except String Regex :=
  match rc pat with
  | some r => Except.ok r
  | none => Except.error ("regexp: Compile failed on " ++ pat)

/-- Configuration rewriting performed by processConfig once the output
template parsed: store the template, drop the update flag when linters are
vendored, force sorting by path when checkstyle mode is selected without
the json flag, and append vendor to the skip list in vendor mode. -/
def updateConfig (go15Vendor : Bool) (tmpl : Template) (config : Config) : Config :=
  let c1 := { config with formatTemplate := some tmpl }
  let c2 :=
    if c1.VendoredLinters && c1.Install && c1.Update then { c1 with Update := false } else c1
  let c3 := if c2.Checkstyle && !c2.JSON then { c2 with SortKeyList := ["path"] } else c2
  if go15Vendor || c3.Vendor then { c3 with Skip := c3.Skip ++ ["vendor"], Vendor := true }
  else c3

/-- Filter-pattern compilation step of processConfig: a non-empty pattern
list is joined by alternation into one regex, an empty list yields no
regex at all. -/
def compileFilter (rc : String → Option Regex) (patterns : List String) :
    Except String (Option Regex) :=
  if 0 < patterns.length then
    match mustCompile rc (String.intercalate "|" patterns) with
    | Except.ok r => Except.ok (some r)
    | Except.error e => Except.error e
  else Except.ok none

/-- Embedding of processConfig from main.go.  The template parser and the
regular-expression compiler are passed in as functions standing for the
text/template and regexp libraries; go15Vendor stands for the
GO15VENDOREXPERIMENT environment-variable check.  Environment-variable
writes, warnings and GOMAXPROCS are side effects with no bearing on the
returned values and are not modelled.  The returned triple is the updated
configuration plus the include and exclude regexes. -/
def processConfig (tp : String → Option Template) (rc : String → Option Regex)
    (go15Vendor : Bool) (config : Config) :
    Except String (Config × Option Regex × Option Regex) :=
  match tp config.Format with
  | none => Except.error ("invalid format " ++ config.Format)
  | some tmpl =>
    match compileFilter rc (updateConfig go15Vendor tmpl config).Exclude with
    | Except.error e => Except.error e
    | Except.ok exc =>
      match compileFilter rc (updateConfig go15Vendor tmpl config).Include with
      | Except.error e => Except.error e
      | Except.ok inc => Except.ok (updateConfig go15Vendor tmpl config, inc, exc)

/-! ## Linter selection (replaceWithMegacheck, lintersFromConfig) -/

/-- Embedding of the scanning loop of replaceWithMegacheck: one pass over
the enabled list records which of the three megacheck constituents occur
and builds the revised list with the three constituents and megacheck
itself left out. -/
def megaScan : List String → Bool × Bool × Bool × List String
  | [] => (false, false, false, [])
  | l :: rest =>
    let (s, g, u, r) := megaScan rest
    if l = "staticcheck" then (true, g, u, r)
    else if l = "gosimple" then (s, true, u, r)
    else if l = "unused" then (s, g, true, r)
    else if l = "megacheck" then (s, g, u, r)
    else (s, g, u, l :: r)

/-- Embedding of replaceWithMegacheck from main.go: when staticcheck,
gosimple and unused are all enabled, the revised list with megacheck
appended is returned, otherwise the enabled list is returned unchanged.
The enableAll argument only controls a warning message. -/
def replaceWithMegacheck (enabled : List String) (enableAll : Bool) : List String :=
  let (s, g, u, revised) := megaScan enabled
  let _ := enableAll
  if s && g && u then revised ++ ["megacheck"]
  else enabled

/-- Lookup-preserving insert on the association list modelling a Go map
write out[name] = linter. -/
def mapInsert (m : List (String × Linter)) (k : String) (v : Linter) : List (String × Linter) :=
  (k, v) :: m.filter (fun p => p.1 ≠ k)

/-- Association-list model of the Go map delete builtin. -/
def mapDelete (m : List (String × Linter)) (k : String) : List (String × Linter) :=
  m.filter (fun p => p.1 ≠ k)

/-- Embedding of the enable loop of lintersFromConfig: each enabled name
is resolved to a linter and added, except that slow linters are skipped
when only fast linters were requested. -/
def enableLoop (getLinter : String → Linter) (fast : Bool)
    (out : List (String × Linter)) : List String → List (String × Linter)
  | [] => out
  | name :: rest =>
    let linter := getLinter name
    if fast && !linter.IsFast then enableLoop getLinter fast out rest
    else enableLoop getLinter fast (mapInsert out name linter) rest

/-- Embedding of the disable loop of lintersFromConfig: every disabled
name is deleted from the map after all enabled linters were added. -/
def disableLoop (out : List (String × Linter)) : List String → List (String × Linter)
  | [] => out
  | name :: rest => disableLoop (mapDelete out name) rest

/-- Embedding of lintersFromConfig from main.go.  getLinter stands for
getLinterByName applied to the per-linter override configuration, whose
defining file is not under src. -/
def lintersFromConfig (getLinter : String → Linter) (config : Config) :
    List (String × Linter) :=
  let enable := replaceWithMegacheck config.Enable config.EnableAll
  disableLoop (enableLoop getLinter config.Fast [] enable) config.Disable

/-! ## Environment setup (getGoPath, configureEnvironment, install setup) -/

/-- State of the process environment read by main.go: the GOPATH, GOBIN
and PATH variables (empty string for unset, as os.Getenv reports) and the
result of user.Current, with none standing for its error case. -/
structure GoEnv where
  GOPATH : String := ""
  GOBIN : String := ""
  PATH : String := ""
  userHomeDir : Option String := none
deriving DecidableEq

/-- Model of filepath.Join on a list of elements: the non-empty elements
joined by slashes and cleaned; all-empty input yields the empty path. -/
def goJoinList (parts : List String) : String :=
  let kept := parts.filter (fun p => p ≠ "")
  if kept = [] then "" else clean (String.intercalate "/" kept)

/-- Model of the two-argument filepath.Join. -/
def goJoin (a b : String) : String :=
  goJoinList [a, b]

/-- Model of splitting a character list at a separator, used for the
PATH-list separator. -/
def splitOnChar (sep : Char) : List Char → List (List Char)
  | [] => [[]]
  | c :: rest =>
    let r := splitOnChar sep rest
    if c = sep then [] :: r
    else
      match r with
      | h :: t => (c :: h) :: t
      | [] => [[c]]

/-- Model of strings.Split at the unix path-list separator. -/
def goSplitList (s : String) : List String :=
  (splitOnChar ':' s.data).map (fun l => ⟨l⟩)

/-- Embedding of getGoPath from main.go: the GOPATH variable when set,
otherwise the go directory under the current user's home; when GOPATH is
unset and user.Current fails, kingpin.FatalIfError aborts the process,
which this embedding reports as an error. -/
def getGoPath (env : GoEnv) : Except String String :=
  if env.GOPATH = "" then
    match env.userHomeDir with
    | none => Except.error "getGoPath: user.Current failed"
    | some home => Except.ok (goJoin home "go")
  else Except.ok env.GOPATH

/-- Embedding of getGoPathList from main.go. -/
def getGoPathList (env : GoEnv) : Except String (List String) :=
  match getGoPath env with
  | Except.error e => Except.error e
  | Except.ok gp => Except.ok (goSplitList gp)

/-- Embedding of addPath from main.go: appends the path unless it is
already present. -/
def addPath (paths : List String) (path : String) : List String :=
  if paths.contains path then paths else paths ++ [path]

/-- Embedding of addGoBinsToPath from main.go: the PATH entries plus the
bin directory of every GOPATH entry plus GOBIN when set. -/
def addGoBinsToPath (envPATH envGOBIN : String) (gopaths : List String) : List String :=
  let paths := goSplitList envPATH
  let paths := gopaths.foldl (fun ps p => addPath ps (goJoin p "bin")) paths
  if envGOBIN ≠ "" then addPath paths envGOBIN else paths

/-- Embedding of configureEnvironment from main.go: computes the new PATH
value; aborts exactly when getGoPath does. -/
def configureEnvironment (env : GoEnv) : Except String String :=
  match getGoPathList env with
  | Except.error e => Except.error e
  | Except.ok gopaths =>
    Except.ok (String.intercalate ":" (addGoBinsToPath env.PATH env.GOBIN gopaths))

/-- Embedding of the vendoredSearchPaths table from main.go. -/
def vendoredSearchPaths : List (List String) :=
  [["github.com", "alecthomas", "gometalinter", "_linters"],
   ["gopkg.in", "alecthomas", "gometalinter.v1", "_linters"]]

/-- Inner loop of findVendoredLinters: the first GOPATH entry whose
vendor root exists on disk, for one search home. -/
def findVendorInner (stat : String → Bool) (home : List String) : List String → Option String
  | [] => none
  | p :: rest =>
    let vendorRoot := goJoinList ([p, "src"] ++ home)
    if stat vendorRoot then some vendorRoot else findVendorInner stat home rest

/-- Outer loop of findVendoredLinters over the search-path table. -/
def findVendorLoop (stat : String → Bool) (gopaths : List String) :
    List (List String) → String
  | [] => ""
  | home :: rest =>
    match findVendorInner stat home gopaths with
    | some root => root
    | none => findVendorLoop stat gopaths rest

/-- Embedding of findVendoredLinters from main.go; stat stands for the
os.Stat existence check.  The empty string reports that no vendor root
was found. -/
def findVendoredLinters (stat : String → Bool) (env : GoEnv) : Except String String :=
  match getGoPathList env with
  | Except.error e => Except.error e
  | Except.ok gopaths => Except.ok (findVendorLoop stat gopaths vendoredSearchPaths)

/-- Embedding of configureEnvironmentForInstall from main.go: resolves
the GOPATH list and the vendor root, aborting via kingpin.Fatalf when no
vendored linters are found, and returns the GOBIN and GOPATH values it
would set. -/
def configureEnvironmentForInstall (stat : String → Bool) (env : GoEnv) :
    Except String (String × String) :=
  match getGoPathList env with
  | Except.error e => Except.error e
  | Except.ok gopaths =>
    match findVendoredLinters stat env with
    | Except.error e => Except.error e
    | Except.ok vendorRoot =>
      if vendorRoot = "" then
        Except.error ("could not find vendored linters in GOPATH=" ++
          (match getGoPath env with | Except.ok gp => gp | Except.error e => e))
      else
        let gobin := if env.GOBIN = "" then goJoin (gopaths.headD "") "bin" else env.GOBIN
        Except.ok (gobin, vendorRoot)

/-! ## Renderers and the Run entry point -/

/-- Issues kept by a renderer: with the errors-only option set, issues
whose severity is not Error are skipped. -/
def keptIssues (errorsOnly : Bool) (issues : List Issue) : List Issue :=
  issues.filter (fun i => !(errorsOnly && i.Severity != Severity.Error))

/-- Embedding of outputToConsole from main.go: prints each kept issue and
returns the printed issues together with the exit-status contribution,
which is set to one by every printed issue. -/
def outputToConsole (errorsOnly : Bool) (issues : List Issue) : List Issue × Nat :=
  issues.foldl
    (fun acc i =>
      if errorsOnly && i.Severity != Severity.Error then acc
      else (acc.1 ++ [i], 1))
    ([], 0)

/-- Embedding of outputToJSON from main.go: marshals each kept issue (a
plain record, so marshalling cannot fail) and returns the rendered issues
together with the exit-status contribution as in the console renderer. -/
def outputToJSON (errorsOnly : Bool) (issues : List Issue) : List Issue × Nat :=
  issues.foldl
    (fun acc i =>
      if errorsOnly && i.Severity != Severity.Error then acc
      else (acc.1 ++ [i], 1))
    ([], 0)

/-- Modelled from the spec: outputToCheckstyle is declared in a file that
is not under src.  Per the spec it renders one error element per issue
grouped by file; like the other renderers it honors the errors-only
option and contributes one to the exit status exactly when an issue was
rendered. -/
def outputToCheckstyle (errorsOnly : Bool) (issues : List Issue) : List Issue × Nat :=
  issues.foldl
    (fun acc i =>
      if errorsOnly && i.Severity != Severity.Error then acc
      else (acc.1 ++ [i], 1))
    ([], 0)

/-- Outcome of one invocation of Run that did not abort: whether the lint
jobs were dispatched, the issues handed to the renderer, the diagnostics
surfaced as warnings, and the process exit status. -/
structure RunResult where
  ranJobs : Bool
  rendered : List Issue
  warnings : List String
  status : Nat
deriving DecidableEq

/-- Embedding of Run from main.go.  Function parameters stand for the
collaborators main.go calls into: tp and rc for the template and regexp
libraries, getLinter for getLinterByName (not under src), validate for
the result of validateLinters (not under src), fs for the filesystem
walked by resolvePaths, stat for the os.Stat check of findVendoredLinters,
env for the process environment, and jobIssues and jobDiags for the
contents of the issue and error channels returned by runLinters (not
under src).  Fatal exits become Except.error: in install mode with
vendored linters, configureEnvironmentForInstall can abort, and on the
lint path configureEnvironment can abort in getGoPath before
processConfig runs.  installLinters is not under src and per the spec
installation is out of scope, so it is modelled as a non-aborting side
effect; remaining environment mutation and timing have no bearing on the
returned values. -/
def Run (tp : String → Option Template) (rc : String → Option Regex) (go15Vendor : Bool)
    (getLinter : String → Linter) (validate : Except String Unit)
    (fs : String → List WalkEntry) (stat : String → Bool) (env : GoEnv)
    (paths : List String)
    (jobIssues : List Issue) (jobDiags : List String) (config : Config) :
    Except String RunResult :=
  if config.Install then
    if config.VendoredLinters then
      match configureEnvironmentForInstall stat env with
      | Except.error e => Except.error e
      | Except.ok _ =>
        Except.ok { ranJobs := false, rendered := [], warnings := [], status := 0 }
    else Except.ok { ranJobs := false, rendered := [], warnings := [], status := 0 }
  else
    match configureEnvironment env with
    | Except.error e => Except.error e
    | Except.ok _newPATH =>
      match processConfig tp rc go15Vendor config with
      | Except.error e => Except.error e
      | Except.ok (cfg, _include, _exclude) =>
        let _resolvedPaths := resolvePaths fs paths cfg.Skip
        let _linters := lintersFromConfig getLinter cfg
        match validate with
        | Except.error e => Except.error e
        | Except.ok _ =>
          let (rendered, outStatus) :=
            if cfg.JSON then outputToJSON cfg.Errors jobIssues
            else if cfg.Checkstyle then outputToCheckstyle cfg.Errors jobIssues
            else outputToConsole cfg.Errors jobIssues
          let status := jobDiags.foldl (fun s _ => s ||| 2) outStatus
          Except.ok { ranJobs := true, rendered := rendered, warnings := jobDiags, status := status }

/-! ## CLI flag glue for the sort key list -/

/-- Embedding of the sortKeys list from the CLI glue. -/
def sortKeys : List String :=
  ["none", "path", "line", "column", "severity", "message", "linter"]

/-- Modelled from the spec: the EnumsVar combinator of the kingpin flag
library (which is not part of this repository) accepts a flag value only
when it is one of the allowed enum strings, rejecting anything else while
the command line is parsed, before Run begins. -/
def enumsVar (allowed : List String) (values : List String) : Except String (List String) :=
  match values.find? (fun v => !allowed.contains v) with
  | some bad => Except.error ("enum value not one of the allowed values: " ++ bad)
  | none => Except.ok values

/-- Embedding of the sort flag registration from the CLI glue: the values
given to the sort flag pass through EnumsVar with sortKeys allowed. -/
def parseSortFlag (values : List String) : Except String (List String) :=
  enumsVar sortKeys values

/-! ## Lemmas about processConfig -/

theorem updateConfig_stable (go15Vendor : Bool) (tmpl : Template) (config : Config) :
    (updateConfig go15Vendor tmpl config).Exclude = config.Exclude ∧
    (updateConfig go15Vendor tmpl config).Include = config.Include ∧
    (updateConfig go15Vendor tmpl config).Errors = config.Errors ∧
    (updateConfig go15Vendor tmpl config).JSON = config.JSON ∧
    (updateConfig go15Vendor tmpl config).Checkstyle = config.Checkstyle := by
  simp only [updateConfig]
  split_ifs <;> exact ⟨rfl, rfl, rfl, rfl, rfl⟩

theorem updateConfig_checkstyle_sort (go15Vendor : Bool) (tmpl : Template) (config : Config)
    (hc : config.Checkstyle = true) (hj : config.JSON = false) :
    (updateConfig go15Vendor tmpl config).SortKeyList = ["path"] := by
  simp only [updateConfig]
  split_ifs <;> simp_all

theorem compileFilter_spec (rc : String → Option Regex) (patterns : List String)
    (res : Option Regex) (h : compileFilter rc patterns = Except.ok res) :
    (res = none ↔ patterns = []) ∧
    (∀ r, res = some r → rc (String.intercalate "|" patterns) = some r) := by
  unfold compileFilter mustCompile at h
  by_cases hl : 0 < patterns.length
  · rw [if_pos hl] at h
    cases hrc : rc (String.intercalate "|" patterns) with
    | none => rw [hrc] at h; simp at h
    | some r =>
      rw [hrc] at h
      simp only [Except.ok.injEq] at h
      constructor
      · constructor
        · intro hn; rw [← h] at hn; simp at hn
        · intro hp; subst hp; simp at hl
      · intro r2 hr2
        rw [← h] at hr2
        injection hr2 with h3
        rw [h3]
  · rw [if_neg hl] at h
    simp only [Except.ok.injEq] at h
    have hp : patterns = [] := by
      cases patterns with
      | nil => rfl
      | cons a t => exact absurd (by simp) hl
    subst hp
    rw [← h]
    simp

theorem processConfig_ok_inv (tp : String → Option Template) (rc : String → Option Regex)
    (go15Vendor : Bool) (config cfg : Config) (inc exc : Option Regex)
    (h : processConfig tp rc go15Vendor config = Except.ok (cfg, inc, exc)) :
    ∃ tmpl, tp config.Format = some tmpl ∧
      cfg = updateConfig go15Vendor tmpl config ∧
      compileFilter rc cfg.Exclude = Except.ok exc ∧
      compileFilter rc cfg.Include = Except.ok inc := by
  unfold processConfig at h
  split at h
  · exact absurd h (by simp)
  · rename_i tmpl htp
    refine ⟨tmpl, htp, ?_⟩
    split at h
    · exact absurd h (by simp)
    · rename_i excV hexc
      split at h
      · exact absurd h (by simp)
      · rename_i incV hinc
        simp only [Except.ok.injEq, Prod.mk.injEq] at h
        obtain ⟨h1, h2, h3⟩ := h
        subst h1; subst h2; subst h3
        exact ⟨rfl, hexc, hinc⟩

/-! ## C1: checkstyle mode and the sort key list -/

/-- Concrete template parser accepting every format string, standing for
text/template on well-formed templates. -/
def tpOk : String → Option Template := fun s => some (Template.mk s)

/-- Concrete regex compiler accepting every pattern, standing for the
regexp library on well-formed patterns. -/
def rcOk : String → Option Regex := fun s => some (Regex.mk s)

/-- Concrete configuration with both the checkstyle and the json flags
set and a user-chosen sort key. -/
def cfgCheckstyleJson : Config :=
  { Format := "f", Checkstyle := true, JSON := true, SortKeyList := ["severity"] }

/-- C1 counterexample: with both the checkstyle and the json flags set,
processConfig runs to completion yet leaves the user-configured sort key
list untouched, so a configuration with Checkstyle set does not always
end up with config.Sort equal to the path singleton. -/
theorem processConfig_checkstyle_json_keeps_user_sort :
    cfgCheckstyleJson.Checkstyle = true ∧
    processConfig tpOk rcOk false cfgCheckstyleJson =
      Except.ok ({ cfgCheckstyleJson with formatTemplate := some (Template.mk "f") },
        none, none) ∧
    ({ cfgCheckstyleJson with formatTemplate := some (Template.mk "f") }).SortKeyList ≠
      ["path"] :=
  ⟨rfl, rfl, by decide⟩

/-- C1 (amended): when the checkstyle rendering mode is selected and the
json flag is not also set, processConfig forces the sort key list to the
path singleton, regardless of the user-configured sort keys. -/
theorem processConfig_checkstyle_forces_path_sort (tp : String → Option Template)
    (rc : String → Option Regex) (go15Vendor : Bool) (config cfg : Config)
    (inc exc : Option Regex)
    (hc : config.Checkstyle = true) (hj : config.JSON = false)
    (h : processConfig tp rc go15Vendor config = Except.ok (cfg, inc, exc)) :
    cfg.SortKeyList = ["path"] := by
  obtain ⟨tmpl, _, hcfg, _, _⟩ := processConfig_ok_inv tp rc go15Vendor config cfg inc exc h
  rw [hcfg]
  exact updateConfig_checkstyle_sort go15Vendor tmpl config hc hj

/-- Concrete checkstyle configuration without the json flag, input of the
C1 witness. -/
def cfgCheckstyleOnly : Config :=
  { Format := "f", Checkstyle := true, SortKeyList := ["severity"] }

/-- Witness for C1: a checkstyle configuration without the json flag
comes out of processConfig with the path singleton as sort key list. -/
theorem processConfig_checkstyle_forces_path_sort_witness :
    ({ Format := "f", Checkstyle := true, SortKeyList := ["path"],
        formatTemplate := some (Template.mk "f") : Config }).SortKeyList = ["path"] :=
  processConfig_checkstyle_forces_path_sort tpOk rcOk false cfgCheckstyleOnly
    { Format := "f", Checkstyle := true, SortKeyList := ["path"],
      formatTemplate := some (Template.mk "f") }
    none none rfl rfl rfl

/-! ## C4: sort keys are validated at flag-parsing time -/

/-- C4: the sort key list is drawn from the fixed enum of seven keys, and
the sort flag values are accepted at flag-parsing time exactly when every
value belongs to that enum; any other value is rejected there, before the
pipeline runs. -/
theorem sortKeys_fixed_enum_rejected_at_parse (values : List String) :
    sortKeys = ["none", "path", "line", "column", "severity", "message", "linter"] ∧
    ((∃ accepted, parseSortFlag values = Except.ok accepted) ↔ ∀ v ∈ values, v ∈ sortKeys) := by
  refine ⟨rfl, ?_⟩
  unfold parseSortFlag enumsVar
  cases hf : values.find? (fun v => !sortKeys.contains v) with
  | some bad =>
    constructor
    · rintro ⟨a, ha⟩
      exact absurd ha (by simp)
    · intro hall
      have hmem := List.mem_of_find?_eq_some hf
      have hbad := List.find?_some hf
      rw [Bool.not_eq_true'] at hbad
      have hnot : bad ∉ sortKeys := by simpa using hbad
      exact absurd (hall bad hmem) hnot
  | none =>
    rw [List.find?_eq_none] at hf
    constructor
    · intro _ v hv
      have := hf v hv
      simpa using this
    · intro _
      exact ⟨values, rfl⟩

/-! ## C5: include and exclude patterns compiled once in processConfig -/

/-- C5: when processConfig succeeds, the returned exclude regex is absent
exactly when the exclude pattern list is empty, and otherwise is the
compilation of the patterns joined by alternation into one regex; the
same holds for the include regex. -/
theorem processConfig_compiles_filter_patterns (tp : String → Option Template)
    (rc : String → Option Regex) (go15Vendor : Bool) (config cfg : Config)
    (inc exc : Option Regex)
    (h : processConfig tp rc go15Vendor config = Except.ok (cfg, inc, exc)) :
    ((exc = none ↔ config.Exclude = []) ∧
      (∀ r, exc = some r → rc (String.intercalate "|" config.Exclude) = some r)) ∧
    ((inc = none ↔ config.Include = []) ∧
      (∀ r, inc = some r → rc (String.intercalate "|" config.Include) = some r)) := by
  obtain ⟨tmpl, _, hcfg, hexc, hinc⟩ := processConfig_ok_inv tp rc go15Vendor config cfg inc exc h
  obtain ⟨hE, hI, -, -, -⟩ := updateConfig_stable go15Vendor tmpl config
  rw [hcfg, hE] at hexc
  rw [hcfg, hI] at hinc
  exact ⟨compileFilter_spec rc config.Exclude exc hexc,
    compileFilter_spec rc config.Include inc hinc⟩

/-- Concrete configuration with two exclude patterns and no include
pattern, input of the C5 witness. -/
def cfgFilters : Config :=
  { Format := "f", Exclude := ["aa", "bb"] }

/-- Witness for C5: on a configuration with exclude patterns aa and bb
and no include patterns, the exclude regex is the compilation of the
alternation of the two, as the claim theorem yields at this input. -/
theorem processConfig_compiles_filter_patterns_witness :
    rcOk (String.intercalate "|" cfgFilters.Exclude) = some (Regex.mk "aa|bb") :=
  (processConfig_compiles_filter_patterns tpOk rcOk false cfgFilters
      { cfgFilters with formatTemplate := some (Template.mk "f") }
      none (some (Regex.mk "aa|bb")) rfl).1.2 (Regex.mk "aa|bb") rfl

/-! ## C6: the megacheck substitution rule -/

theorem megaScan_eq (l : List String) :
    megaScan l = (l.contains "staticcheck", l.contains "gosimple", l.contains "unused",
      l.filter (fun x => !(["staticcheck", "gosimple", "unused", "megacheck"].contains x))) := by
  induction l with
  | nil => rfl
  | cons x rest ih =>
    simp only [megaScan, ih]
    by_cases h1 : x = "staticcheck"
    · subst h1; simp
    · by_cases h2 : x = "gosimple"
      · subst h2; simp
      · by_cases h3 : x = "unused"
        · subst h3; simp
        · by_cases h4 : x = "megacheck"
          · subst h4; simp
          · have h1s : "staticcheck" ≠ x := Ne.symm h1
            have h2s : "gosimple" ≠ x := Ne.symm h2
            have h3s : "unused" ≠ x := Ne.symm h3
            have h4s : "megacheck" ≠ x := Ne.symm h4
            simp [h1, h2, h3, h4, h1s, h2s, h3s, h4s]

/-- C6: replaceWithMegacheck returns the enabled list with staticcheck,
gosimple, unused and any pre-existing megacheck entries removed and one
megacheck appended exactly when the enabled list contains all three of
staticcheck, gosimple and unused, and otherwise returns the enabled list
unchanged; lintersFromConfig evaluates this substitution once while
building the linter set. -/
theorem replaceWithMegacheck_substitution (enabled : List String) (enableAll : Bool) :
    replaceWithMegacheck enabled enableAll =
      (if enabled.contains "staticcheck" && enabled.contains "gosimple" &&
          enabled.contains "unused" then
        enabled.filter
          (fun l => !(["staticcheck", "gosimple", "unused", "megacheck"].contains l)) ++
          ["megacheck"]
      else enabled) := by
  unfold replaceWithMegacheck
  rw [megaScan_eq]

/-! ## Lemmas about the renderers and the exit status -/

theorem renderFold (errorsOnly : Bool) :
    ∀ (issues acc : List Issue) (s : Nat),
      issues.foldl
          (fun acc i =>
            if errorsOnly && i.Severity != Severity.Error then acc
            else (acc.1 ++ [i], 1))
          (acc, s) =
        (acc ++ keptIssues errorsOnly issues,
          if keptIssues errorsOnly issues = [] then s else 1) := by
  intro issues
  induction issues with
  | nil => intro acc s; simp [keptIssues]
  | cons i rest ih =>
    intro acc s
    by_cases hc : (errorsOnly && i.Severity != Severity.Error) = true
    · have hpi : (!(errorsOnly && (i.Severity != Severity.Error))) = false := by
        rw [hc]; rfl
      have hk : keptIssues errorsOnly (i :: rest) = keptIssues errorsOnly rest :=
        List.filter_cons_of_neg (by simp [hpi])
      simp only [List.foldl_cons, if_pos hc, hk]
      exact ih acc s
    · rw [Bool.not_eq_true] at hc
      have hpi : (!(errorsOnly && (i.Severity != Severity.Error))) = true := by
        rw [hc]; rfl
      have hk : keptIssues errorsOnly (i :: rest) = i :: keptIssues errorsOnly rest :=
        List.filter_cons_of_pos hpi
      simp only [List.foldl_cons, hc, Bool.false_eq_true, if_false, hk]
      rw [ih (acc ++ [i]) 1]
      have hne : i :: keptIssues errorsOnly rest ≠ [] := by simp
      rw [if_neg hne]
      cases hkr : keptIssues errorsOnly rest with
      | nil => simp
      | cons a t => simp

theorem outputToConsole_eq (errorsOnly : Bool) (issues : List Issue) :
    outputToConsole errorsOnly issues =
      (keptIssues errorsOnly issues,
        if keptIssues errorsOnly issues = [] then 0 else 1) := by
  unfold outputToConsole
  have h := renderFold errorsOnly issues [] 0
  simpa using h

theorem outputToJSON_eq (errorsOnly : Bool) (issues : List Issue) :
    outputToJSON errorsOnly issues =
      (keptIssues errorsOnly issues,
        if keptIssues errorsOnly issues = [] then 0 else 1) := by
  unfold outputToJSON
  have h := renderFold errorsOnly issues [] 0
  simpa using h

theorem outputToCheckstyle_eq (errorsOnly : Bool) (issues : List Issue) :
    outputToCheckstyle errorsOnly issues =
      (keptIssues errorsOnly issues,
        if keptIssues errorsOnly issues = [] then 0 else 1) := by
  unfold outputToCheckstyle
  have h := renderFold errorsOnly issues [] 0
  simpa using h

theorem statusFold : ∀ (diags : List String) (s : Nat),
    diags.foldl (fun a _ => a ||| 2) s = if diags = [] then s else s ||| 2 := by
  intro diags
  induction diags with
  | nil => intro s; rfl
  | cons d rest ih =>
    intro s
    simp only [List.foldl_cons, ih (s ||| 2)]
    cases rest with
    | nil => simp
    | cons e t =>
      have h22 : (2 : Nat) ||| 2 = 2 := by decide
      have habs : s ||| 2 ||| 2 = s ||| 2 := by
        rw [Nat.or_assoc, h22]
      simp [habs]

/-! ## C2: configuration errors and the fatal error classes of Run -/

/-- Environment with GOPATH unset and no resolvable current user, the
input of the C2 counterexample. -/
def envNoHome : GoEnv := { PATH := "/usr/bin" }

/-- Plainly valid configuration used by the C2 counterexample. -/
def cfgPlain : Config := { Format := "f" }

/-- C2 counterexample: Run aborts on an environment-setup failure (GOPATH
unset and user.Current failing inside configureEnvironment's getGoPath)
although processConfig succeeds on the same configuration, validateLinters
reports no error and install mode is off — so aborting via processConfig
or validateLinters is not the only error class that aborts the whole
run. -/
theorem run_aborts_without_config_error :
    (∃ e, Run tpOk rcOk false (fun _ => { Name := "golint" }) (Except.ok ())
        (fun _ => []) (fun _ => false) envNoHome ["."] [] [] cfgPlain = Except.error e) ∧
    (∃ t, processConfig tpOk rcOk false cfgPlain = Except.ok t) ∧
    cfgPlain.Install = false :=
  ⟨⟨"getGoPath: user.Current failed", rfl⟩,
    ⟨({ cfgPlain with formatTemplate := some (Template.mk "f") }, none, none), rfl⟩, rfl⟩

/-- C2 (amended): configuration errors — a bad output-format template, a
bad include or exclude regex via processConfig, an invalid linter
definition via validateLinters — are fatal at startup, before any job
runs; besides them, the only aborts of the whole run are the
environment-setup failures of main.go: getGoPath inside
configureEnvironment on the lint path, and configureEnvironmentForInstall
in vendored install mode.  The right-hand side never mentions the job
results or the diagnostics, which are universally quantified, so per-job
failures never abort the run, and every aborting check runs before the
jobs are dispatched. -/
theorem run_aborts_iff_config_or_environment_error (tp : String → Option Template)
    (rc : String → Option Regex) (go15Vendor : Bool) (getLinter : String → Linter)
    (validate : Except String Unit) (fs : String → List WalkEntry)
    (stat : String → Bool) (env : GoEnv) (paths : List String)
    (jobIssues : List Issue) (jobDiags : List String) (config : Config) :
    (∃ e, Run tp rc go15Vendor getLinter validate fs stat env paths jobIssues jobDiags
        config = Except.error e) ↔
      ((config.Install = false ∧
          ((∃ e, configureEnvironment env = Except.error e) ∨
            (∃ e, processConfig tp rc go15Vendor config = Except.error e) ∨
            (∃ e, validate = Except.error e))) ∨
        (config.Install = true ∧ config.VendoredLinters = true ∧
          (∃ e, configureEnvironmentForInstall stat env = Except.error e))) := by
  unfold Run
  by_cases hI : config.Install = true
  · rw [if_pos hI]
    by_cases hV : config.VendoredLinters = true
    · rw [if_pos hV]
      cases hc : configureEnvironmentForInstall stat env with
      | error e => simp [hI, hV]
      | ok t => simp [hI, hV]
    · rw [Bool.not_eq_true] at hV
      rw [if_neg (by simp [hV])]
      simp [hI, hV]
  · rw [Bool.not_eq_true] at hI
    rw [if_neg (by simp [hI])]
    cases hce : configureEnvironment env with
    | error e => simp [hI]
    | ok newPATH =>
      cases hp : processConfig tp rc go15Vendor config with
      | error e => simp [hI]
      | ok t =>
        obtain ⟨cfg, inc, exc⟩ := t
        cases hv : validate with
        | error e => simp [hI]
        | ok u => simp [hI]

/-! ## C3: diagnostics are warnings and do not suppress issues -/

/-- C3: when Run completes, every diagnostic from the error channel is
surfaced as a warning, the rendered issues are exactly the kept issues of
the job results regardless of the diagnostics, and the exit status is the
bitwise or of bit one (set exactly when issues were rendered) and bit two
(set exactly when diagnostics were present). -/
theorem run_surfaces_diagnostics_without_suppression (tp : String → Option Template)
    (rc : String → Option Regex) (go15Vendor : Bool) (getLinter : String → Linter)
    (validate : Except String Unit) (fs : String → List WalkEntry)
    (stat : String → Bool) (env : GoEnv) (paths : List String)
    (jobIssues : List Issue) (jobDiags : List String) (config : Config) (r : RunResult)
    (hI : config.Install = false)
    (h : Run tp rc go15Vendor getLinter validate fs stat env paths jobIssues jobDiags
      config = Except.ok r) :
    r.warnings = jobDiags ∧
    r.rendered = keptIssues config.Errors jobIssues ∧
    r.status = (if r.rendered = [] then 0 else 1) ||| (if jobDiags = [] then 0 else 2) := by
  unfold Run at h
  rw [hI] at h
  simp only [Bool.false_eq_true, if_false] at h
  split at h
  · exact absurd h (by simp)
  · rename_i newPATH henv
    split at h
    · exact absurd h (by simp)
    · rename_i cfg inc exc hp
      split at h
      · exact absurd h (by simp)
      · rename_i u hv
        obtain ⟨tmpl, -, hcfg, -, -⟩ :=
          processConfig_ok_inv tp rc go15Vendor config cfg inc exc hp
        obtain ⟨-, -, hErr, -, -⟩ := updateConfig_stable go15Vendor tmpl config
        rw [← hcfg] at hErr
        have hrend :
            (if cfg.JSON then outputToJSON cfg.Errors jobIssues
              else if cfg.Checkstyle then outputToCheckstyle cfg.Errors jobIssues
              else outputToConsole cfg.Errors jobIssues) =
              (keptIssues config.Errors jobIssues,
                if keptIssues config.Errors jobIssues = [] then 0 else 1) := by
          rw [outputToJSON_eq, outputToCheckstyle_eq, outputToConsole_eq, hErr]
          split <;> [rfl; split <;> rfl]
        rw [hrend] at h
        simp only [Except.ok.injEq] at h
        subst h
        refine ⟨rfl, rfl, ?_⟩
        simp only
        rw [statusFold]
        cases hd : jobDiags with
        | nil => simp
        | cons d t2 =>
          simp only [if_neg (by simp : ¬(d :: t2 = []))]

/-- Concrete issue consumed by the C3 witness run. -/
def issueW : Issue := { Linter := "golint" }

/-- Concrete diagnostic consumed by the C3 witness run. -/
def diagW : String := "deadline exceeded by linter gotype"

/-- Configuration of the C3 witness run. -/
def cfgW3 : Config := { Format := "f" }

/-- Outcome of the C3 witness run: the issue rendered, the diagnostic
warned, exit status three. -/
def resultW : RunResult :=
  { ranJobs := true, rendered := [issueW], warnings := [diagW], status := 3 }

/-- Environment of the C3 witness run, with GOPATH set so that the
environment setup succeeds. -/
def envW : GoEnv := { GOPATH := "/go", PATH := "/usr/bin" }

/-- Witness for C3: a run with one issue and one diagnostic renders the
issue, surfaces the diagnostic as a warning, and exits with both status
bits set. -/
theorem run_surfaces_diagnostics_without_suppression_witness :
    resultW.warnings = [diagW] ∧
    resultW.rendered = keptIssues cfgW3.Errors [issueW] ∧
    resultW.status =
      (if resultW.rendered = [] then 0 else 1) |||
        (if [diagW] = ([] : List String) then 0 else 2) :=
  run_surfaces_diagnostics_without_suppression tpOk rcOk false
    (fun _ => { Name := "golint" }) (Except.ok ()) (fun _ => []) (fun _ => false) envW
    ["."] [issueW] [diagW] cfgW3 resultW rfl rfl

/-! ## Lemmas about the linter map -/

theorem lookup_mem : ∀ (m : List (String × Linter)) (k : String) (v : Linter),
    List.lookup k m = some v → (k, v) ∈ m := by
  intro m
  induction m with
  | nil => intro k v h; simp [List.lookup] at h
  | cons p t ih =>
    intro k v h
    obtain ⟨a, b⟩ := p
    cases hk : k == a with
    | true =>
      rw [List.lookup, hk] at h
      injection h with h2
      have hka : k = a := eq_of_beq hk
      subst hka
      subst h2
      exact List.mem_cons_self _ _
    | false =>
      rw [List.lookup, hk] at h
      exact List.mem_cons_of_mem _ (ih k v h)

theorem mem_mapInsert (m : List (String × Linter)) (k : String) (v : Linter)
    (x : String × Linter) (h : x ∈ mapInsert m k v) : x = (k, v) ∨ x ∈ m := by
  unfold mapInsert at h
  rcases List.mem_cons.mp h with h2 | h2
  · exact Or.inl h2
  · exact Or.inr (List.mem_of_mem_filter h2)

theorem enableLoop_fast_inv (getLinter : String → Linter) :
    ∀ (names : List String) (out : List (String × Linter)),
      (∀ x ∈ out, (x : String × Linter).2.IsFast = true) →
      ∀ x ∈ enableLoop getLinter true out names, x.2.IsFast = true := by
  intro names
  induction names with
  | nil => intro out hout x hx; exact hout x hx
  | cons name rest ih =>
    intro out hout x hx
    rw [enableLoop] at hx
    by_cases hf : (getLinter name).IsFast = true
    · rw [if_neg (by simp [hf])] at hx
      refine ih (mapInsert out name (getLinter name)) ?_ x hx
      intro y hy
      rcases mem_mapInsert out name (getLinter name) y hy with h2 | h2
      · rw [h2]; exact hf
      · exact hout y h2
    · rw [Bool.not_eq_true] at hf
      rw [if_pos (by simp [hf])] at hx
      exact ih out hout x hx

theorem disableLoop_subset : ∀ (l : List String) (out : List (String × Linter))
    (x : String × Linter), x ∈ disableLoop out l → x ∈ out := by
  intro l
  induction l with
  | nil => intro out x h; exact h
  | cons name rest ih =>
    intro out x h
    rw [disableLoop] at h
    exact List.mem_of_mem_filter (ih (mapDelete out name) x h)

theorem lookup_mapDelete_self (m : List (String × Linter)) (k : String) :
    List.lookup k (mapDelete m k) = none := by
  induction m with
  | nil => rfl
  | cons p t ih =>
    obtain ⟨a, b⟩ := p
    unfold mapDelete at *
    rw [List.filter_cons]
    by_cases ha : a = k
    · rw [if_neg (by simp [ha])]
      exact ih
    · rw [if_pos (by simp [ha])]
      have hk : (k == a) = false := by
        apply beq_false_of_ne
        intro h2
        exact ha h2.symm
      rw [List.lookup, hk]
      exact ih

theorem lookup_none_mapDelete (m : List (String × Linter)) (k k2 : String)
    (h : List.lookup k m = none) : List.lookup k (mapDelete m k2) = none := by
  induction m with
  | nil => rfl
  | cons p t ih =>
    obtain ⟨a, b⟩ := p
    cases hk : k == a with
    | true =>
      rw [List.lookup, hk] at h
      cases h
    | false =>
      rw [List.lookup, hk] at h
      unfold mapDelete at *
      rw [List.filter_cons]
      by_cases ha : a = k2
      · rw [if_neg (by simp [ha])]
        exact ih h
      · rw [if_pos (by simp [ha])]
        rw [List.lookup, hk]
        exact ih h

theorem disableLoop_lookup_none : ∀ (l : List String) (out : List (String × Linter))
    (k : String), List.lookup k out = none → List.lookup k (disableLoop out l) = none := by
  intro l
  induction l with
  | nil => intro out k h; exact h
  | cons name rest ih =>
    intro out k h
    rw [disableLoop]
    exact ih (mapDelete out name) k (lookup_none_mapDelete out k name h)

/-! ## C7: fast-only runs include only fast linters -/

/-- C7: with the fast-only option set, every linter that
lintersFromConfig returns is classified fast, whatever the function
resolving linter names returns for slow linters. -/
theorem lintersFromConfig_fast_only (getLinter : String → Linter) (config : Config)
    (name : String) (linter : Linter) (hFast : config.Fast = true)
    (h : List.lookup name (lintersFromConfig getLinter config) = some linter) :
    linter.IsFast = true := by
  unfold lintersFromConfig at h
  have hm := lookup_mem _ name linter h
  have hm2 := disableLoop_subset config.Disable _ (name, linter) hm
  rw [hFast] at hm2
  exact enableLoop_fast_inv getLinter _ [] (by intro x hx; cases hx) (name, linter) hm2

/-- Linter resolver of the C7 and C10 witnesses: golint is fast, every
other name resolves to a slow linter. -/
def getLinterW : String → Linter :=
  fun name => if name = "golint" then { Name := "golint", IsFast := true } else { Name := name }

/-- Witness for C7: in a fast-only configuration enabling golint and
gotype, the returned golint entry is classified fast. -/
theorem lintersFromConfig_fast_only_witness :
    ({ Name := "golint", IsFast := true } : Linter).IsFast = true :=
  lintersFromConfig_fast_only getLinterW
    { Fast := true, Enable := ["golint", "gotype"] } "golint"
    { Name := "golint", IsFast := true } rfl rfl

/-! ## C10: disable takes precedence over enable -/

/-- C10: every name in the disable list is absent from the map
lintersFromConfig returns, even when the same name is also enabled,
because disabled names are deleted after all enabled linters are
added. -/
theorem lintersFromConfig_disable_wins (getLinter : String → Linter) (config : Config)
    (name : String) (h : name ∈ config.Disable) :
    List.lookup name (lintersFromConfig getLinter config) = none := by
  simp only [lintersFromConfig]
  generalize enableLoop getLinter config.Fast [] (replaceWithMegacheck config.Enable config.EnableAll) = out
  revert h
  generalize config.Disable = dl
  intro h
  induction dl generalizing out with
  | nil => cases h
  | cons d rest ih =>
    rw [disableLoop]
    rcases List.mem_cons.mp h with h2 | h2
    · subst h2
      exact disableLoop_lookup_none rest _ name (lookup_mapDelete_self out name)
    · exact ih (mapDelete out d) h2

/-- Witness for C10: golint is both enabled and disabled, and the
resulting linter map does not contain it. -/
theorem lintersFromConfig_disable_wins_witness :
    List.lookup "golint"
      (lintersFromConfig getLinterW { Enable := ["golint"], Disable := ["golint"] }) = none :=
  lintersFromConfig_disable_wins getLinterW
    { Enable := ["golint"], Disable := ["golint"] } "golint" (by decide)

/-! ## Lemmas about path cleaning -/

theorem startsChars_two (a b : Char) (l : List Char) :
    startsChars [a, b] l = true ↔ ∃ t, l = a :: b :: t := by
  cases l with
  | nil => simp [startsChars]
  | cons c rest =>
    cases rest with
    | nil => simp [startsChars]
    | cons d t =>
      rw [startsChars, startsChars, startsChars]
      constructor
      · intro h
        simp only [Bool.and_eq_true, beq_iff_eq, Bool.and_true] at h
        exact ⟨t, by rw [h.1, h.2]⟩
      · rintro ⟨t2, ht⟩
        injection ht with h1 ht2
        injection ht2 with h2 _
        simp [h1, h2]

theorem splitSlash_no_slash : ∀ (l : List Char), ∀ e ∈ splitSlash l, '/' ∉ e := by
  intro l
  induction l with
  | nil =>
    intro e he
    simp only [splitSlash, List.mem_singleton] at he
    subst he
    simp
  | cons c rest ih =>
    intro e he
    simp only [splitSlash] at he
    by_cases hc : c = '/'
    · rw [if_pos hc] at he
      rcases List.mem_cons.mp he with h2 | h2
      · subst h2; simp
      · exact ih e h2
    · rw [if_neg hc] at he
      cases hsr : splitSlash rest with
      | nil =>
        rw [hsr] at he
        simp only [List.mem_singleton] at he
        subst he
        intro hmem
        rw [List.mem_singleton] at hmem
        exact hc hmem.symm
      | cons h0 t0 =>
        rw [hsr] at he
        rcases List.mem_cons.mp he with h2 | h2
        · subst h2
          intro hmem
          rcases List.mem_cons.mp hmem with h3 | h3
          · exact hc h3.symm
          · exact ih h0 (hsr ▸ List.mem_cons_self h0 t0) h3
        · exact ih e (hsr ▸ List.mem_cons_of_mem h0 h2)

theorem cleanProc_inv (rooted : Bool) :
    ∀ (input acc : List (List Char)),
      (∀ a ∈ acc, a ≠ [] ∧ a ≠ ['.'] ∧ '/' ∉ a) →
      (∀ e ∈ input, '/' ∉ e) →
      ∀ x ∈ cleanProc rooted acc input, x ≠ [] ∧ x ≠ ['.'] ∧ '/' ∉ x := by
  intro input
  induction input with
  | nil =>
    intro acc hacc _ x hx
    rw [cleanProc] at hx
    exact hacc x (List.mem_reverse.mp hx)
  | cons e rest ih =>
    intro acc hacc hin x hx
    have hinE : '/' ∉ e := hin e (List.mem_cons_self e rest)
    have hin2 : ∀ f ∈ rest, '/' ∉ f := fun f hf => hin f (List.mem_cons_of_mem e hf)
    simp only [cleanProc] at hx
    by_cases h1 : e = [] ∨ e = ['.']
    · rw [if_pos h1] at hx
      exact ih acc hacc hin2 x hx
    · rw [if_neg h1] at hx
      push_neg at h1
      by_cases h2 : e = ['.', '.']
      · rw [if_pos h2] at hx
        cases hacc2 : acc with
        | nil =>
          rw [hacc2] at hx
          cases rooted with
          | true => exact ih [] (by intro a ha; cases ha) hin2 x hx
          | false =>
            refine ih [['.', '.']] ?_ hin2 x hx
            intro a ha
            simp only [List.mem_singleton] at ha
            subst ha
            refine ⟨by simp, by simp, by simp⟩
        | cons a accTail =>
          rw [hacc2] at hx
          simp only [] at hx
          have haccT : ∀ f ∈ accTail, f ≠ [] ∧ f ≠ ['.'] ∧ '/' ∉ f :=
            fun f hf => hacc f (hacc2 ▸ List.mem_cons_of_mem a hf)
          by_cases h3 : a = ['.', '.']
          · rw [if_pos h3] at hx
            refine ih (e :: a :: accTail) ?_ hin2 x hx
            intro f hf
            rcases List.mem_cons.mp hf with h4 | h4
            · subst h4
              exact ⟨by simp [h2], by simp [h2], by subst h2; simp⟩
            · exact hacc f (hacc2 ▸ h4)
          · rw [if_neg h3] at hx
            exact ih accTail haccT hin2 x hx
      · rw [if_neg h2] at hx
        refine ih (e :: acc) ?_ hin2 x hx
        intro f hf
        rcases List.mem_cons.mp hf with h4 | h4
        · subst h4
          exact ⟨h1.1, h1.2, hinE⟩
        · exact hacc f h4

theorem joinSlash_cons (e : List Char) (rest : List (List Char)) :
    joinSlash (e :: rest) =
      e ++ (match rest with | [] => [] | _ :: _ => '/' :: joinSlash rest) := by
  cases rest with
  | nil => simp [joinSlash]
  | cons f t => rfl

/-- Central normal-form fact: filepath.Clean never returns a path that
begins with dot-slash, which is exactly what relativePackagePath needs to
be injective on resolvePaths' directory set. -/
theorem clean_not_dotslash (p : String) : strStarts (clean p) "./" = false := by
  have hdot : ("./" : String).data = ['.', '/'] := rfl
  unfold clean
  by_cases hp : p = ""
  · rw [if_pos hp]; decide
  · rw [if_neg hp]
    simp only []
    have hP : ∀ x ∈ cleanProc (isAbs p) [] (splitSlash p.data),
        x ≠ [] ∧ x ≠ ['.'] ∧ '/' ∉ x :=
      cleanProc_inv (isAbs p) (splitSlash p.data) [] (by intro a ha; cases ha)
        (splitSlash_no_slash p.data)
    cases helems : cleanProc (isAbs p) [] (splitSlash p.data) with
    | nil =>
      rw [if_pos rfl]
      cases isAbs p with
      | true => decide
      | false => decide
    | cons e0 erest =>
      rw [if_neg (by simp)]
      obtain ⟨hne, hnd, hns⟩ := hP e0 (by rw [helems]; exact List.mem_cons_self e0 erest)
      rw [strStarts, hdot]
      show startsChars ['.', '/']
        ((if isAbs p = true then ['/'] else []) ++ joinSlash (e0 :: erest)) = false
      cases isAbs p with
      | true =>
        rw [if_pos rfl]
        simp only [List.cons_append, List.nil_append]
        have hch : (('.' : Char) == '/') = false := by decide
        rw [startsChars, hch]
        simp
      | false =>
        rw [if_neg (by simp)]
        simp only [List.nil_append]
        obtain ⟨c, e0t, he0⟩ := List.exists_cons_of_ne_nil hne
        subst he0
        rw [joinSlash_cons]
        simp only [List.cons_append]
        by_cases hc : c = '.'
        · subst hc
          rw [startsChars]
          have hch : (('.' : Char) == '.') = true := by decide
          rw [hch, Bool.true_and]
          cases he0t : e0t with
          | nil =>
            rw [he0t] at hnd
            exact absurd rfl hnd
          | cons d dt =>
            simp only [startsChars]
            have hd : ('/' == d) = false := by
              apply beq_false_of_ne
              intro h2
              apply hns
              rw [he0t, ← h2]
              exact List.mem_cons_of_mem _ (List.mem_cons_self _ _)
            rw [hd]
            simp
        · rw [startsChars]
          have hch : (('.' : Char) == c) = false := by
            apply beq_false_of_ne
            intro h2
            exact hc h2.symm
          rw [hch]
          simp

theorem dotslash_append (s : String) : strStarts ("./" ++ s) "./" = true := by
  rw [strStarts]
  have hdot : ("./" : String).data = ['.', '/'] := rfl
  rw [hdot, String.data_append "./" s, hdot]
  simp [startsChars]

theorem relativePackagePath_form (d : String) :
    (isAbs (relativePackagePath d) || strStarts (relativePackagePath d) "." ||
      strStarts (relativePackagePath d) "./") = true := by
  unfold relativePackagePath
  by_cases hc : (isAbs d || strStarts d ".") = true
  · rw [if_pos hc]
    simp only [Bool.or_eq_true] at hc ⊢
    rcases hc with h | h
    · exact Or.inl (Or.inl h)
    · exact Or.inl (Or.inr h)
  · rw [if_neg hc]
    simp [dotslash_append d]

theorem relativePackagePath_inj (a b : String)
    (ha : strStarts a "./" = false) (hb : strStarts b "./" = false)
    (h : relativePackagePath a = relativePackagePath b) : a = b := by
  unfold relativePackagePath at h
  by_cases hca : (isAbs a || strStarts a ".") = true <;>
    by_cases hcb : (isAbs b || strStarts b ".") = true
  · rw [if_pos hca, if_pos hcb] at h
    exact h
  · rw [if_pos hca, if_neg hcb] at h
    exfalso
    have h2 : strStarts a "./" = true := by rw [h]; exact dotslash_append b
    rw [h2] at ha
    cases ha
  · rw [if_neg hca, if_pos hcb] at h
    exfalso
    have h2 : strStarts b "./" = true := by rw [← h]; exact dotslash_append a
    rw [h2] at hb
    cases hb
  · rw [if_neg hca, if_neg hcb] at h
    have h2 : ("./" ++ a).data = ("./" ++ b).data := by rw [h]
    rw [String.data_append "./" a, String.data_append "./" b] at h2
    apply String.ext
    simpa using h2

/-! ## Preservation lemmas for the directory set of resolvePaths -/

theorem mem_stringSetAdd_self (s : List String) (x : String) : x ∈ stringSetAdd s x := by
  unfold stringSetAdd
  by_cases hc : s.contains x = true
  · rw [if_pos hc]
    simpa using hc
  · rw [if_neg hc]
    exact List.mem_cons_self x s

theorem mem_stringSetAdd_of_mem (s : List String) (x y : String) (h : x ∈ s) :
    x ∈ stringSetAdd s y := by
  unfold stringSetAdd
  split
  · exact h
  · exact List.mem_cons_of_mem y h

theorem walkLoop_preserve (M : List String → Prop)
    (hadd : ∀ s p, M s → M (stringSetAdd s (clean p))) (sp : String → Bool) :
    ∀ (entries : List WalkEntry) (skipped dirs : List String),
      M dirs → M (walkLoop sp entries skipped dirs) := by
  intro entries
  induction entries with
  | nil => intro skipped dirs h; exact h
  | cons e rest ih =>
    intro skipped dirs h
    rw [walkLoop]
    split
    · exact ih skipped dirs h
    · split
      · exact h
      · split
        · exact ih _ dirs h
        · split
          · exact ih skipped _ (hadd dirs (goDir e.path) h)
          · exact ih skipped dirs h

theorem foldPaths_preserve (M : List String → Prop)
    (hadd : ∀ s p, M s → M (stringSetAdd s (clean p)))
    (sp : String → Bool) (fs : String → List WalkEntry) :
    ∀ (paths : List String) (dirs : List String), M dirs →
      M (paths.foldl
        (fun dirs path =>
          if strEnds path "/..." then walkLoop sp (fs (goDir path)) [] dirs
          else stringSetAdd dirs (clean path))
        dirs) := by
  intro paths
  induction paths with
  | nil => intro dirs h; exact h
  | cons p rest ih =>
    intro dirs h
    rw [List.foldl_cons]
    by_cases hsuf : strEnds p "/..." = true
    · rw [if_pos hsuf]
      exact ih _ (walkLoop_preserve M hadd sp (fs (goDir p)) [] dirs h)
    · rw [if_neg hsuf]
      exact ih _ (hadd dirs p h)

theorem foldPaths_mem (sp : String → Bool) (fs : String → List WalkEntry) :
    ∀ (paths : List String) (dirs : List String) (p : String),
      p ∈ paths → strEnds p "/..." = false →
      clean p ∈ paths.foldl
        (fun dirs path =>
          if strEnds path "/..." then walkLoop sp (fs (goDir path)) [] dirs
          else stringSetAdd dirs (clean path))
        dirs := by
  intro paths
  induction paths with
  | nil => intro dirs p hmem; cases hmem
  | cons q rest ih =>
    intro dirs p hmem hsuf
    rw [List.foldl_cons]
    rcases List.mem_cons.mp hmem with h2 | h2
    · subst h2
      rw [if_neg (by rw [hsuf]; simp)]
      refine foldPaths_preserve (fun s => clean p ∈ s) ?_ sp fs rest _
        (mem_stringSetAdd_self dirs (clean p))
      intro s p2 hmem2
      exact mem_stringSetAdd_of_mem s (clean p) (clean p2) hmem2
    · exact ih _ p h2 hsuf

/-! ## C8: resolvePaths output is sorted, duplicate-free and normalized -/

/-- C8: for every filesystem, path list and skip list, resolvePaths
returns a list sorted in ascending lexicographic order without
duplicates; an empty path list yields exactly the dot singleton; and
every returned entry is absolute, begins with a dot, or carries a
dot-slash prefix. -/
theorem resolvePaths_sorted_nodup_normalized (fs : String → List WalkEntry)
    (paths skip : List String) :
    List.Sorted strLeP (resolvePaths fs paths skip) ∧
    (resolvePaths fs paths skip).Nodup ∧
    (paths = [] → resolvePaths fs paths skip = ["."]) ∧
    ∀ s ∈ resolvePaths fs paths skip,
      (isAbs s || strStarts s "." || strStarts s "./") = true := by
  by_cases hp : paths = []
  · subst hp
    unfold resolvePaths
    rw [if_pos rfl]
    refine ⟨List.sorted_singleton ".", List.nodup_singleton ".", fun _ => rfl, ?_⟩
    intro s hs
    rw [List.mem_singleton] at hs
    subst hs
    decide
  · unfold resolvePaths
    rw [if_neg hp]
    simp only []
    have hM := foldPaths_preserve
      (fun s => s.Nodup ∧ ∀ x ∈ s, strStarts x "./" = false)
      (by
        intro s p hM
        unfold stringSetAdd
        split
        · exact hM
        · rename_i hcon
          refine ⟨List.nodup_cons.mpr ⟨by simpa using hcon, hM.1⟩, ?_⟩
          intro x hx
          rcases List.mem_cons.mp hx with h2 | h2
          · subst h2; exact clean_not_dotslash p
          · exact hM.2 x h2)
      (newPathFilter skip) fs paths []
      ⟨List.nodup_nil, by intro x hx; cases hx⟩
    refine ⟨List.sorted_insertionSort strLeP _, ?_, fun h => absurd h hp, ?_⟩
    · rw [(List.perm_insertionSort strLeP _).nodup_iff]
      refine List.Nodup.map_on ?_ hM.1
      intro x hx y hy hxy
      exact relativePackagePath_inj x y (hM.2 x hx) (hM.2 y hy) hxy
    · intro s hs
      rw [List.mem_insertionSort] at hs
      obtain ⟨d, _, rfl⟩ := List.mem_map.mp hs
      exact relativePackagePath_form d

/-- Witness for C8: a two-path input comes out sorted, and since it has
no explicit hypotheses the component facts are extracted at a concrete
input directly from the claim theorem. -/
theorem resolvePaths_sorted_nodup_normalized_witness :
    List.Sorted strLeP (resolvePaths (fun _ => []) ["b", "a"] []) ∧
    (resolvePaths (fun _ => []) ["b", "a"] []).Nodup ∧
    resolvePaths (fun _ => []) [] [] = ["."] := by
  have h1 := resolvePaths_sorted_nodup_normalized (fun _ => []) ["b", "a"] []
  have h2 := resolvePaths_sorted_nodup_normalized (fun _ => []) [] []
  exact ⟨h1.1, h1.2.1, h2.2.2.1 rfl⟩

/-! ## C9: explicitly listed paths are never filtered -/

/-- C9: a path listed explicitly, without the recursive suffix, always
contributes its cleaned, package-relative form to resolvePaths' output,
for every skip list and filesystem; the skip list and the
dot-or-underscore filter only act inside the recursive walk. -/
theorem resolvePaths_explicit_path_included (fs : String → List WalkEntry)
    (paths skip : List String) (p : String)
    (hmem : p ∈ paths) (hsuf : strEnds p "/..." = false) :
    relativePackagePath (clean p) ∈ resolvePaths fs paths skip := by
  unfold resolvePaths
  rw [if_neg (List.ne_nil_of_mem hmem)]
  simp only []
  rw [List.mem_insertionSort]
  exact List.mem_map_of_mem relativePackagePath
    (foldPaths_mem (newPathFilter skip) fs paths [] p hmem hsuf)

/-- Witness for C9: the explicit path underscore-x is returned even
though it is in the skip list and its base name starts with an
underscore. -/
theorem resolvePaths_explicit_path_included_witness :
    relativePackagePath (clean "_x") ∈ resolvePaths (fun _ => []) ["_x"] ["_x"] :=
  resolvePaths_explicit_path_included (fun _ => []) ["_x"] ["_x"] "_x"
    (List.mem_singleton.mpr rfl) rfl

end Gometalinter
